import Mathlib

/-!
# Verification of the `whitelist` network ACL (BasicNet / BasicDual)

A shallow embedding of the Go package `whitelist` (files
`whitelist_net.go` and `whitelist_dual.go`), together with proofs about
the embedded operations.

Modelling conventions:
* Go byte strings are modelled as `List Char`; all inputs relevant here
  are ASCII, where bytes and characters coincide.
* Go `[]byte`/`net.IP` values are modelled as `List Nat` (one entry per
  byte; real byte values are `< 256`).
* A Go `*net.IPNet` is `Option IPNet`: `none` is the nil pointer.
* Functions that can panic in Go (out-of-range index or slice, nil
  dereference) return an explicit `panic`-style constructor.
* `net.ParseCIDR` is embedded along its IPv4 path (dotted-decimal
  address, decimal prefix length).  The IPv6 branch of the Go parser is
  not modelled; in this embedding an IPv6 CIDR text simply fails to
  parse.  All whitelist-level control flow (shape detection, token
  splitting and skipping, error and truncation behaviour) is independent
  of the address family.
-/

/-! ## Character helpers -/

/-- ASCII decimal digit test, as in Go's `'0' <= s[i] && s[i] <= '9'`. -/
def isDigitChar (c : Char) : Bool := '0' ≤ c && c ≤ '9'

/-- White space as trimmed by `strings.TrimSpace` (ASCII subset:
space, \t, \n, \v, \f, \r). -/
def isSpaceChar (c : Char) : Bool :=
  c = ' ' || c = '\t' || c = '\n' || c.toNat = 11 || c.toNat = 12 || c = '\r'

/-- `strings.TrimSpace`: drop white space from both ends. -/
def trimSpace (s : List Char) : List Char :=
  ((s.dropWhile isSpaceChar).reverse.dropWhile isSpaceChar).reverse

/-- Numeric value of a decimal digit character. -/
def digitVal (c : Char) : Nat := c.toNat - 48

/-- The digit character for `d < 10`. -/
def digitChar (d : Nat) : Char := Char.ofNat (d + 48)

/-- Big-endian decimal digits of `n` (fuel-based so that it reduces in the
kernel); helper for `natToChars`. -/
def natToCharsAux : Nat → Nat → List Char
  | 0, _ => []
  | f + 1, n =>
    if n = 0 then []
    else natToCharsAux f (n / 10) ++ [digitChar (n % 10)]

/-- Go's `uitoa`: decimal representation, no leading zeros, `0 ↦ "0"`. -/
def natToChars (n : Nat) : List Char :=
  if n = 0 then ['0'] else natToCharsAux n n

/-- Hex digit characters (lowercase), as Go's `hexDigit` table. -/
def hexDigitChar (d : Nat) : Char :=
  if d < 10 then Char.ofNat (48 + d) else Char.ofNat (87 + d)

/-- Big-endian hex digits (fuel-based); helper for `natToHexChars`. -/
def natToHexCharsAux : Nat → Nat → List Char
  | 0, _ => []
  | f + 1, n =>
    if n = 0 then []
    else natToHexCharsAux f (n / 16) ++ [hexDigitChar (n % 16)]

/-- Go's `appendHex`: lowercase hex, no leading zeros, `0 ↦ "0"`. -/
def natToHexChars (n : Nat) : List Char :=
  if n = 0 then ['0'] else natToHexCharsAux n n

/-- Two fixed hex digits of one byte, as in Go's `hexString`. -/
def byteHexPair (b : Nat) : List Char :=
  [hexDigitChar ((b >>> 4) &&& 15), hexDigitChar (b &&& 15)]

/-- Go's `hexString`: two hex digits per byte. -/
def hexString (bs : List Nat) : List Char := (bs.map byteHexPair).flatten

/-! ## `net.dtoi` and the IPv4 CIDR parser -/

/-- The overflow cutoff of Go's `dtoi` (`big = 0xFFFFFF`). -/
def dtoiBig : Nat := 16777215

/-- Loop of Go's `dtoi`: accumulator `n`, characters consumed `i`. -/
def dtoiAux : List Char → Nat → Nat → Nat × Nat × Bool
  | [], n, i => if i = 0 then (0, 0, false) else (n, i, true)
  | c :: cs, n, i =>
    if isDigitChar c then
      if dtoiBig ≤ n * 10 + digitVal c then (dtoiBig, i + 1, false)
      else dtoiAux cs (n * 10 + digitVal c) (i + 1)
    else if i = 0 then (0, 0, false) else (n, i, true)

/-- Go's `dtoi`: decimal prefix of `s`, returning value, number of
characters consumed, and success. -/
def dtoi (s : List Char) : Nat × Nat × Bool := dtoiAux s 0 0

/-- One dotted-decimal field of Go's `parseIPv4`: `dtoi`, the `n > 0xFF`
bound, and the rejection of leading zeros. Returns the byte and the rest
of the input. -/
def parseField (s : List Char) : Option (Nat × List Char) :=
  match dtoi s with
  | (n, c, ok) =>
    if ok = false ∨ 255 < n then none
    else if 1 < c ∧ s.head? = some '0' then none
    else some (n, s.drop c)

/-- The separator check of Go's `parseIPv4` for fields after the first:
`if s[0] != '.' { return nil }; s = s[1:]`. -/
def expectDot : List Char → Option (List Char)
  | [] => none
  | c :: r => if c = '.' then some r else none

/-- Go's `parseIPv4`: four fields separated by `'.'`, nothing left over.
Returns the four byte values. -/
def parseIPv4 (s : List Char) : Option (List Nat) :=
  match parseField s with
  | none => none
  | some (b0, r0) =>
    match expectDot r0 with
    | none => none
    | some s1 =>
      match parseField s1 with
      | none => none
      | some (b1, r1) =>
        match expectDot r1 with
        | none => none
        | some s2 =>
          match parseField s2 with
          | none => none
          | some (b2, r2) =>
            match expectDot r2 with
            | none => none
            | some s3 =>
              match parseField s3 with
              | none => none
              | some (b3, r3) =>
                if r3 = [] then some [b0, b1, b2, b3] else none

/-- Byte list of Go's `net.CIDRMask(ones, 8*k)`:
`0xff` while at least eight ones remain, then `^byte(0xff >> ones)`. -/
def cidrMaskBytes : Nat → Nat → List Nat
  | _, 0 => []
  | ones, k + 1 =>
    if 8 ≤ ones then 255 :: cidrMaskBytes (ones - 8) k
    else (255 ^^^ (255 >>> ones)) :: cidrMaskBytes 0 k

/-- `net.CIDRMask(ones, 32)`. -/
def cidrMask4 (ones : Nat) : List Nat := cidrMaskBytes ones 4

/-- Bytewise `ip & mask`, as in `net.IP.Mask` once both sides are
four bytes long. -/
def maskBytes (ip mask : List Nat) : List Nat :=
  List.zipWith (fun a b => a &&& b) ip mask

/-- A `net.IPNet` value: base address bytes and mask bytes. -/
structure IPNet where
  ip : List Nat
  mask : List Nat
deriving DecidableEq

/-- Go's `net.ParseCIDR`, IPv4 path: split at the first `'/'`, parse the
dotted-decimal address, parse the decimal prefix length (which must use
the whole mask text and be at most 32), and return the masked network.
The IPv6 branch of the Go function is not modelled (see the file
header); an address that is not dotted-decimal IPv4 yields `none`. -/
def parseCIDR (s : List Char) : Option IPNet :=
  match s.findIdx? (fun c => c == '/') with
  | none => none
  | some i =>
    match parseIPv4 (s.take i) with
    | none => none
    | some bs =>
      match dtoi (s.drop (i + 1)) with
      | (n, c, ok) =>
        if ok = true ∧ c = (s.drop (i + 1)).length ∧ n ≤ 32 then
          some ⟨maskBytes bs (cidrMask4 n), cidrMask4 n⟩
        else none

/-! ## `net.IP.To4`, `IPNet.String`, `IPNet.Contains` -/

/-- Go's `net.IP.To4`: a 4-byte address as-is, a 16-byte IPv4-mapped
address (`0..0 ff ff a b c d`) reduced to its last four bytes, anything
else `none`. -/
def ipTo4 (ip : List Nat) : Option (List Nat) :=
  if ip.length = 4 then some ip
  else if ip.length = 16 ∧ ip.take 10 = List.replicate 10 0 ∧
      (ip.drop 10).take 2 = [255, 255] then some (ip.drop 12)
  else none

/-- 16-bit groups of a 16-byte IPv6 address (`(ip[i]<<8) | ip[i+1]`). -/
def v6Groups : List Nat → List Nat
  | a :: b :: rest => (a * 256 + b) :: v6Groups rest
  | _ => []

/-- Length of the zero-group run starting at the head. -/
def zeroRunLen : List Nat → Nat
  | 0 :: t => zeroRunLen t + 1
  | _ => 0

/-- Leftmost longest run of zero groups: scans each position carrying the
best `(position, length)` found so far, improving only on strictly longer
runs (as the Go formatter does). -/
def bestZeroRun : List Nat → Nat → Nat × Nat → Nat × Nat
  | [], _, best => best
  | g :: t, i, (bp, bl) =>
    let r := zeroRunLen (g :: t)
    if bl < r then bestZeroRun t (i + 1) (i, r) else bestZeroRun t (i + 1) (bp, bl)

/-- IPv6 textual form of the 16-bit groups: lowercase hex groups joined
by `':'`, with the leftmost longest run of at least two zero groups
compressed to `"::"` (Go's `IP.String`, IPv6 branch). -/
def v6Format (gs : List Nat) : List Char :=
  let best := bestZeroRun gs 0 (0, 0)
  if best.2 < 2 then [':'].intercalate (gs.map natToHexChars)
  else
    [':'].intercalate ((gs.take best.1).map natToHexChars) ++
      ':' :: ':' :: [':'].intercalate ((gs.drop (best.1 + best.2)).map natToHexChars)

/-- Dotted-decimal text of four bytes. -/
def dotted (bs : List Nat) : List Char := ['.'].intercalate (bs.map natToChars)

/-- Go's `net.IP.String`: `"<nil>"` for an empty address, dotted decimal
when `To4` applies, `"?"` plus hex for other non-16-byte lengths, and the
compressed IPv6 form otherwise. -/
def ipString (ip : List Nat) : List Char :=
  if ip.length = 0 then "<nil>".data
  else
    match ipTo4 ip with
    | some p4 => dotted p4
    | none =>
      if ip.length ≠ 16 then '?' :: hexString ip
      else v6Format (v6Groups ip)

/-- Inner loop of Go's `simpleMaskLength` on one non-`0xff` byte: count
leading one bits by shifting left within the byte; returns the count and
the remaining byte value (which must end up zero). -/
def byteOnes : Nat → Nat → Nat × Nat
  | 0, v => (0, v)
  | f + 1, v =>
    if v &&& 128 ≠ 0 then
      let p := byteOnes f ((v <<< 1) &&& 255)
      (p.1 + 1, p.2)
    else (0, v)

/-- Go's `simpleMaskLength`: number of leading one bits if the mask is a
contiguous prefix of ones followed by zeros, else `none` (Go's `-1`). -/
def simpleMaskLength (m : List Nat) : Option Nat :=
  match m with
  | [] => some 0
  | b :: t =>
    if b = 255 then (simpleMaskLength t).map (· + 8)
    else
      let p := byteOnes 8 b
      if p.2 ≠ 0 then none
      else if t.all (fun x => x == 0) then some p.1
      else none

/-- Go's `networkNumberAndMask`: reduce the network address via `To4`
when possible and bring the mask to the same width; `none` stands for
the Go `nil, nil` result. -/
def networkNumberAndMask (n : IPNet) : Option (List Nat × List Nat) :=
  match ipTo4 n.ip with
  | some ip4 =>
    if n.mask.length = 4 then some (ip4, n.mask)
    else if n.mask.length = 16 then some (ip4, n.mask.drop 12)
    else none
  | none =>
    if n.ip.length ≠ 16 then none
    else if n.mask.length = 4 then none
    else if n.mask.length = 16 then some (n.ip, n.mask)
    else none

/-- Go's `net.IPMask.String`: `"<nil>"` when empty, else hex. -/
def maskString (m : List Nat) : List Char :=
  if m.length = 0 then "<nil>".data else hexString m

/-- Go's `(*net.IPNet).String` on a non-nil pointer: `"<nil>"` when
`networkNumberAndMask` fails, `addr/hexmask` for a non-contiguous mask,
and the canonical `addr/ones` form otherwise. -/
def netString (n : IPNet) : List Char :=
  match networkNumberAndMask n with
  | none => "<nil>".data
  | some (nn, m) =>
    match simpleMaskLength m with
    | none => ipString nn ++ '/' :: maskString m
    | some l => ipString nn ++ '/' :: natToChars l

/-- `String()` called on a possibly-nil `*net.IPNet`: the method's nil
check returns `"<nil>"` for a nil pointer. -/
def entryString : Option IPNet → List Char
  | none => "<nil>".data
  | some n => netString n

/-- Go's `(*net.IPNet).Contains`: reduce both sides via `To4`, require
equal lengths, then compare all bytes under the mask.  When
`networkNumberAndMask` fails both `nn` and `m` are Go's `nil` (empty). -/
def containsIP (n : IPNet) (ip : List Nat) : Bool :=
  let nm := (networkNumberAndMask n).getD ([], [])
  let ip2 := (ipTo4 ip).getD ip
  if ip2.length = nm.1.length then
    ((nm.1.zip nm.2).zip ip2).all (fun x => x.1.1 &&& x.1.2 == x.2 &&& x.1.2)
  else false

/-! ## `BasicNet`: Permitted, Add, Remove -/

/-- Modelled from the spec: `validIP` is defined in `whitelist.go`,
which is not under `src/` (the network file's comment points there).
Per spec §4.1 the validator "rejects nil/zero-length or malformed byte
representations"; a Go `net.IP` byte slice is well-formed exactly when
it has 4 or 16 bytes. -/
def validIP (ip : List Nat) : Bool := ip.length == 4 || ip.length == 16

/-- Result of an operation that may hit a Go runtime panic
(nil-pointer dereference). -/
inductive PermittedOut where
  | panic : PermittedOut
  | ok : Bool → PermittedOut
deriving DecidableEq

/-- The scan loop of `BasicNet.Permitted`: first entry containing the IP
wins; calling `Contains` on a nil entry dereferences a nil pointer. -/
def permittedLoop : List (Option IPNet) → List Nat → PermittedOut
  | [], _ => .ok false
  | none :: _, _ => .panic
  | some n :: t, ip => if containsIP n ip then .ok true else permittedLoop t ip

/-- `BasicNet.Permitted` (whitelist_net.go): `false` for an invalid IP,
otherwise scan the entry sequence in order. -/
def BasicNet.Permitted (wl : List (Option IPNet)) (ip : List Nat) : PermittedOut :=
  if validIP ip = false then .ok false else permittedLoop wl ip

/-- `BasicNet.Add`: nil is a no-op, otherwise append. -/
def BasicNet.Add (wl : List (Option IPNet)) (n : Option IPNet) : List (Option IPNet) :=
  match n with
  | none => wl
  | some m => wl ++ [some m]

/-- `BasicNet.Remove`: nil is a no-op; otherwise delete the first entry
whose `String()` equals the argument's `String()`, if any
(`append(wl[:index], wl[index+1:]...)`). -/
def BasicNet.Remove (wl : List (Option IPNet)) (n : Option IPNet) : List (Option IPNet) :=
  match n with
  | none => wl
  | some m =>
    match wl.findIdx? (fun e => entryString e == netString m) with
    | none => wl
    | some i => wl.take i ++ wl.drop (i + 1)

/-! ## `encoding/json` on `[]string` (the subset `UnmarshalJSON` uses) -/

/-- JSON inter-token white space (space, tab, newline, carriage return). -/
def jsonWs (c : Char) : Bool := c = ' ' || c = '\t' || c = '\n' || c = '\r'

/-- Skip JSON white space. -/
def skipWs (s : List Char) : List Char := s.dropWhile jsonWs

/-- Numeric value of one hex digit character (used for `\uXXXX`). -/
def hexVal (c : Char) : Option Nat :=
  if '0' ≤ c ∧ c ≤ '9' then some (c.toNat - 48)
  else if 'a' ≤ c ∧ c ≤ 'f' then some (c.toNat - 87)
  else if 'A' ≤ c ∧ c ≤ 'F' then some (c.toNat - 55)
  else none

/-- Decode the body of a JSON string (the opening quote already
consumed): plain characters up to the closing quote, the standard
escapes, and `\uXXXX` (decoded as a single code point; surrogate-pair
recombination is not modelled).  Control characters below 0x20 are
rejected, as in `encoding/json`.  Returns the decoded content and the
input after the closing quote. -/
def parseJString : List Char → Option (List Char × List Char)
  | [] => none
  | c :: rest =>
    if c = '"' then some ([], rest)
    else if c = '\\' then
      match rest with
      | [] => none
      | e :: rest2 =>
        if e = '"' ∨ e = '\\' ∨ e = '/' then
          (parseJString rest2).map (fun p => (e :: p.1, p.2))
        else if e = 'b' then (parseJString rest2).map (fun p => (Char.ofNat 8 :: p.1, p.2))
        else if e = 'f' then (parseJString rest2).map (fun p => (Char.ofNat 12 :: p.1, p.2))
        else if e = 'n' then (parseJString rest2).map (fun p => ('\n' :: p.1, p.2))
        else if e = 'r' then (parseJString rest2).map (fun p => ('\r' :: p.1, p.2))
        else if e = 't' then (parseJString rest2).map (fun p => ('\t' :: p.1, p.2))
        else if e = 'u' then
          match rest2 with
          | h1 :: h2 :: h3 :: h4 :: rest3 =>
            match hexVal h1, hexVal h2, hexVal h3, hexVal h4 with
            | some v1, some v2, some v3, some v4 =>
              let code := ((v1 * 16 + v2) * 16 + v3) * 16 + v4
              if code.isValidChar then
                (parseJString rest3).map (fun p => (Char.ofNat code :: p.1, p.2))
              else none
            | _, _, _, _ => none
          | _ => none
        else none
    else if c.toNat < 32 then none
    else (parseJString rest).map (fun p => (c :: p.1, p.2))

/-- One JSON array element as `encoding/json` accepts it for a `string`
slot: a quoted string, or `null` (which leaves the zero value, the empty
string, in place). -/
def parseElem (s : List Char) : Option (List Char × List Char) :=
  match s with
  | [] => none
  | c :: rest =>
    if c = '"' then parseJString rest
    else if "null".data.isPrefixOf (c :: rest) then some ([], (c :: rest).drop 4)
    else none

/-- Elements of a JSON array of strings, starting at a position where an
element is expected; fuel bounds the number of elements (one unit is
spent per element, so any fuel above the input length is enough). -/
def parseItems : Nat → List Char → Option (List (List Char) × List Char)
  | 0, _ => none
  | fuel + 1, s =>
    match parseElem s with
    | none => none
    | some (str, r1) =>
      match skipWs r1 with
      | [] => none
      | c :: r3 =>
        if c = ',' then (parseItems fuel (skipWs r3)).map (fun p => (str :: p.1, p.2))
        else if c = ']' then some ([str], r3)
        else none

/-- `json.Unmarshal(in, &nets)` for `nets []string`: a JSON array of
strings (or `null`s), nothing but white space after the closing bracket.
`none` models any `encoding/json` error (the model does not reproduce
Go's individual error message texts). -/
def jsonUnmarshalStringArray (s : List Char) : Option (List (List Char)) :=
  match skipWs s with
  | [] => none
  | c :: rest =>
    if c = '[' then
      match skipWs rest with
      | [] => none
      | c2 :: r2 =>
        if c2 = ']' then (if skipWs r2 = [] then some [] else none)
        else
          match parseItems ((c2 :: r2).length + 1) (c2 :: r2) with
          | some (items, r3) => if skipWs r3 = [] then some items else none
          | none => none
    else none

/-! ## `BasicNet` JSON codec -/

/-- Modelled from the spec: the JSON-format constants live in
`whitelist.go`, which is not under `src/`.  The spec fixes a two-valued
serialization mode `{Compatibility, New}`; only distinctness of the two
constants is used anywhere. -/
def JsonFormatCompatibility : Nat := 0

/-- Modelled from the spec: see `JsonFormatCompatibility`. -/
def JsonFormatNew : Nat := 1

/-- `BasicNet.MarshalJSON`: entry strings joined as a quoted
comma-separated string (compatibility format) or a JSON array of strings
(new format); any other mode value is an error. -/
def BasicNet.MarshalJSON (jsonFormat : Nat) (wl : List (Option IPNet)) :
    Except (List Char) (List Char) :=
  let ss := wl.map entryString
  if jsonFormat = JsonFormatCompatibility then
    Except.ok ('"' :: [','].intercalate ss ++ ['"'])
  else if jsonFormat = JsonFormatNew then
    if 0 < ss.length then
      Except.ok ('[' :: '"' :: ['"', ',', '"'].intercalate ss ++ ['"', ']'])
    else Except.ok "[]".data
  else Except.error "whitelist.Basic: unsupported JSON format".data

/-- Outcome of `UnmarshalJSON`: a runtime panic, an error (with the
message and the entry list the receiver holds afterwards), or success
with the new entry list. -/
inductive UOut where
  | panic : UOut
  | error : List Char → List (Option IPNet) → UOut
  | ok : List (Option IPNet) → UOut
deriving DecidableEq

/-- Error message for an input matching neither accepted shape. -/
def errInvalidMsg : List Char := "whitelist.BasicNet: invalid whitelist".data

/-- Error message prefix for a CIDR token that fails to parse. -/
def netErrPre : List Char := "whitelist.BasicNet: invalid IP network ".data

/-- Stand-in for `"whitelist.BasicNet: " + err.Error()` when
`json.Unmarshal` fails (the model does not reproduce the json package's
message texts). -/
def jsonErrMsg : List Char := "whitelist.BasicNet: invalid JSON input".data

/-- The token loop of `UnmarshalJSON`: each token is trimmed; an empty
token leaves the freshly-made slice slot at `nil` and bumps `skipped`;
a non-empty token is parsed into its slot, a parse failure aborting with
the whitelist reset to nil.  Returns the slot list (one slot per token,
in token order) and the skip count. -/
def parseLoop : List (List Char) → Except (List Char) (List (Option IPNet) × Nat)
  | [] => Except.ok ([], 0)
  | t :: ts =>
    if trimSpace t = [] then
      match parseLoop ts with
      | Except.error e => Except.error e
      | Except.ok (arr, k) => Except.ok (none :: arr, k + 1)
    else
      match parseCIDR (trimSpace t) with
      | none => Except.error (netErrPre ++ trimSpace t)
      | some n =>
        match parseLoop ts with
        | Except.error e => Except.error e
        | Except.ok (arr, k) => Except.ok (some n :: arr, k)

/-- Common tail of `UnmarshalJSON`: run the token loop; on error the
whitelist is nil (empty), on success it is the slot list truncated to
`len - skipped` (`wl.whitelist[0:len(wl.whitelist)-skipped]`). -/
def finishParse (nets : List (List Char)) : UOut :=
  match parseLoop nets with
  | Except.error msg => UOut.error msg []
  | Except.ok (arr, skipped) => UOut.ok (arr.take (arr.length - skipped))

/-- The new-format branch of `UnmarshalJSON`: `json.Unmarshal` into a
string slice (an error leaving the receiver, hence `prev`, untouched),
then the shared token loop. -/
def jsonStep (prev : List (Option IPNet)) (input : List Char) : UOut :=
  match jsonUnmarshalStringArray input with
  | none => UOut.error jsonErrMsg prev
  | some nets => finishParse nets

/-- Body of `UnmarshalJSON` once `in[0]` (here `c0`) and `in[len(in)-1]`
(here `cl`) have been read: `newFormat` is `c0 = '[' && cl = ']'`; an
input that is neither new-format nor quoted is rejected with the
invalid-whitelist error (before the receiver is touched, hence `prev`
stays); new format goes through `json.Unmarshal`; otherwise the inner
slice `in[1:len(in)-1]` (a panic when the input is the single byte `'"'`)
is trimmed and split on commas. -/
def unmarshalBody (prev : List (Option IPNet)) (input : List Char) (c0 cl : Char) : UOut :=
  if (c0 = '[' && cl = ']') = false ∧ (c0 ≠ '"' ∨ cl ≠ '"') then UOut.error errInvalidMsg prev
  else if (c0 = '[' && cl = ']') = true then jsonStep prev input
  else if input.length < 2 then UOut.panic
  else finishParse ((trimSpace ((input.drop 1).dropLast)).splitOn ',')

/-- `BasicNet.UnmarshalJSON` over a previous entry list `prev`: reads
`in[0]` and `in[len(in)-1]` — on empty input the first read is out of
range, a panic — and dispatches on them (see `unmarshalBody`). -/
def BasicNet.UnmarshalJSON (prev : List (Option IPNet)) (input : List Char) : UOut :=
  match input with
  | [] => UOut.panic
  | c0 :: rest => unmarshalBody prev (c0 :: rest) c0 ((c0 :: rest).getLastD c0)

/-! ## `BasicDual` (whitelist_dual.go) -/

/-- Launch policy constants of whitelist_dual.go. -/
def LaunchPolicySequenced : Nat := 0

/-- See `LaunchPolicySequenced`. -/
def LaunchPolicyAsync : Nat := 1

/-- A `BasicDual` state: each sub-ACL is represented by its (read-only,
deterministic) `Permitted` predicate over IPs, plus the launch policy
fixed at construction. -/
structure BasicDual where
  Addresses : List Nat → Bool
  Networks : List Nat → Bool
  launchPolicy : Nat

/-- `BasicDual.Permitted`.  Sequenced: short-circuit
`Addresses.Permitted(ip) || Networks.Permitted(ip)`.  Async: both
sub-checks run as goroutines sending into one channel and the two
received results are OR-ed; `addrArrivesFirst` says which goroutine's
result is received first (the only scheduling freedom visible in the
result). -/
def BasicDual.Permitted (wl : BasicDual) (ip : List Nat) (addrArrivesFirst : Bool) : Bool :=
  if wl.launchPolicy = LaunchPolicySequenced then
    wl.Addresses ip || wl.Networks ip
  else
    let r1 := if addrArrivesFirst then wl.Addresses ip else wl.Networks ip
    let r2 := if addrArrivesFirst then wl.Networks ip else wl.Addresses ip
    r1 || r2

/-! ## Helper lemmas -/

theorem finishParse_ne_panic (nets : List (List Char)) : finishParse nets ≠ UOut.panic := by
  unfold finishParse
  cases h : parseLoop nets with
  | error e => simp
  | ok p => obtain ⟨arr, k⟩ := p; simp

theorem jsonStep_ne_panic (prev : List (Option IPNet)) (input : List Char) :
    jsonStep prev input ≠ UOut.panic := by
  unfold jsonStep
  cases jsonUnmarshalStringArray input with
  | none => simp
  | some nets => simpa using finishParse_ne_panic nets

/-! ## Claim C3 -/

/-- Claim C3: for every fixed pair of sub-ACL states (represented by
their `Permitted` predicates) and every IP, `BasicDual.Permitted`
returns the same boolean under the Sequenced launch policy as under the
Concurrent (Async) policy, whichever goroutine's result is received
first. -/
theorem basicDual_policy_equiv (A N : List Nat → Bool) (ip : List Nat) (ord : Bool) :
    BasicDual.Permitted ⟨A, N, LaunchPolicyAsync⟩ ip ord =
      BasicDual.Permitted ⟨A, N, LaunchPolicySequenced⟩ ip ord := by
  cases ord <;>
    simp [BasicDual.Permitted, LaunchPolicySequenced, LaunchPolicyAsync, Bool.or_comm]

/-! ## Claim C4 -/

theorem permittedLoop_map_some (wl : List IPNet) (ip : List Nat) :
    permittedLoop (wl.map some) ip = .ok (wl.any (fun n => containsIP n ip)) := by
  induction wl with
  | nil => rfl
  | cons h t ih =>
    simp only [List.map_cons, permittedLoop, List.any_cons, ih]
    cases hc : containsIP h ip <;> simp [hc]

/-- Counterexample to claim C4 as stated: the claim quantifies over
every `BasicNet` state, but a state with a nil entry is reachable
through the exported API — the successful deserialization of
`",10.0.0.0/8"` leaves the single entry nil — and on that state
`Permitted` with the valid IP `10.0.0.1` dereferences the nil entry (a
runtime panic) instead of returning a boolean. -/
theorem c4_counterexample :
    BasicNet.UnmarshalJSON [] "\",10.0.0.0/8\"".data = UOut.ok [none] ∧
    validIP [10, 0, 0, 1] = true ∧
    BasicNet.Permitted [none] [10, 0, 0, 1] = PermittedOut.panic := by
  refine ⟨by decide, by decide, by decide⟩

/-- Claim C4 as amended: on a `BasicNet` state whose entries are all
non-nil networks, `Permitted` never panics; it returns `false` (not an
error) when the IP is invalid, and for a valid IP it returns `true` iff
some entry of the whitelist contains the IP.  (On states holding a nil
entry — reachable only through the deserialization bug of C2/C9 — the
scan dereferences the nil entry instead, see `c4_counterexample`.) -/
theorem basicNet_permitted_spec (wl : List IPNet) (ip : List Nat) :
    BasicNet.Permitted (wl.map some) ip ≠ PermittedOut.panic ∧
    (validIP ip = false → BasicNet.Permitted (wl.map some) ip = .ok false) ∧
    (validIP ip = true →
      (BasicNet.Permitted (wl.map some) ip = .ok true ↔
        ∃ n ∈ wl, containsIP n ip = true)) := by
  unfold BasicNet.Permitted
  by_cases hv : validIP ip = false
  · simp [hv]
  · rw [if_neg hv]
    refine ⟨by rw [permittedLoop_map_some]; simp, fun h => absurd h hv, fun _ => ?_⟩
    rw [permittedLoop_map_some]
    constructor
    · intro h
      have : wl.any (fun n => containsIP n ip) = true := by
        by_contra hfalse
        rw [(by simpa using hfalse : wl.any (fun n => containsIP n ip) = false)] at h
        simp at h
      simpa using this
    · intro h
      have : wl.any (fun n => containsIP n ip) = true := by simpa using h
      rw [this]

/-- Witness for C4 at concrete inputs: `192.168.3.0/24` admits
`192.168.3.1`, and the 2-byte invalid value `[0, 0]` is rejected. -/
theorem basicNet_permitted_spec_witness :
    BasicNet.Permitted ([(⟨[192, 168, 3, 0], [255, 255, 255, 0]⟩ : IPNet)].map some)
        [192, 168, 3, 1] = PermittedOut.ok true ∧
    BasicNet.Permitted ([(⟨[192, 168, 3, 0], [255, 255, 255, 0]⟩ : IPNet)].map some)
        [0, 0] = PermittedOut.ok false := by
  constructor
  · exact ((basicNet_permitted_spec [⟨[192, 168, 3, 0], [255, 255, 255, 0]⟩]
      [192, 168, 3, 1]).2.2 (by decide)).mpr
      ⟨⟨[192, 168, 3, 0], [255, 255, 255, 0]⟩, by decide, by decide⟩
  · exact (basicNet_permitted_spec [⟨[192, 168, 3, 0], [255, 255, 255, 0]⟩]
      [0, 0]).2.1 (by decide)

/-! ## Claim C8 -/

/-- Claim C8: `Remove(nil)` is the identity; `Remove(n)` with no entry
whose canonical string equals `n`'s leaves the whitelist unchanged; and
when such an entry exists, `Remove(n)` deletes exactly the first one,
keeping all other entries in their original relative order. -/
theorem basicNet_remove_spec (wl : List (Option IPNet)) (n : IPNet) :
    BasicNet.Remove wl none = wl ∧
    ((∀ e ∈ wl, entryString e ≠ netString n) → BasicNet.Remove wl (some n) = wl) ∧
    (∀ i (hi : i < wl.length), entryString wl[i] = netString n →
      (∀ j (hj : j < wl.length), j < i → entryString wl[j] ≠ netString n) →
      BasicNet.Remove wl (some n) = wl.take i ++ wl.drop (i + 1)) := by
  refine ⟨rfl, ?_, ?_⟩
  · intro h
    have hnone : wl.findIdx? (fun e => entryString e == netString n) = none :=
      List.findIdx?_eq_none_iff.mpr fun e he => by simpa using h e he
    simp [BasicNet.Remove, hnone]
  · intro i hi hp hmin
    have hsome : wl.findIdx? (fun e => entryString e == netString n) = some i :=
      List.findIdx?_eq_some_iff_getElem.mpr
        ⟨hi, by simpa using hp, fun j hj => by
          simpa using hmin j (Nat.lt_trans hj hi) hj⟩
    simp [BasicNet.Remove, hsome]

/-- Witness for C8 at concrete inputs: removing an absent network
(`192.168.0.0/16`) is a no-op, and removing `10.0.0.0/8` deletes its
first (and only) occurrence. -/
theorem basicNet_remove_spec_witness :
    BasicNet.Remove [some ⟨[10, 0, 0, 0], [255, 0, 0, 0]⟩]
        (some ⟨[192, 168, 0, 0], [255, 255, 0, 0]⟩) =
      [some ⟨[10, 0, 0, 0], [255, 0, 0, 0]⟩] ∧
    BasicNet.Remove [some ⟨[192, 168, 3, 0], [255, 255, 255, 0]⟩,
        some ⟨[10, 0, 0, 0], [255, 0, 0, 0]⟩] (some ⟨[10, 0, 0, 0], [255, 0, 0, 0]⟩) =
      [some ⟨[192, 168, 3, 0], [255, 255, 255, 0]⟩] := by
  constructor
  · exact (basicNet_remove_spec [some ⟨[10, 0, 0, 0], [255, 0, 0, 0]⟩]
      ⟨[192, 168, 0, 0], [255, 255, 0, 0]⟩).2.1 (by decide)
  · exact (basicNet_remove_spec [some ⟨[192, 168, 3, 0], [255, 255, 255, 0]⟩,
      some ⟨[10, 0, 0, 0], [255, 0, 0, 0]⟩] ⟨[10, 0, 0, 0], [255, 0, 0, 0]⟩).2.2
      1 (by decide) (by decide) (by decide)

/-! ## Claim C10 -/

/-- Counterexample to claim C10 as stated: on the empty input,
`UnmarshalJSON` reads `in[0]`, which is out of range — a runtime panic,
not an error return. -/
theorem c10_counterexample :
    BasicNet.UnmarshalJSON [] [] = UOut.panic := rfl

/-- Claim C10 as amended: for every input of length at least two, all
index and slice operations of `UnmarshalJSON` are in bounds, and the
function returns an error or succeeds (never panics).  (Besides the
empty input, the single-byte input `"` panics on the slice
`in[1:len(in)-1]`.) -/
theorem c10_amended (prev : List (Option IPNet)) (input : List Char)
    (h : 2 ≤ input.length) : BasicNet.UnmarshalJSON prev input ≠ UOut.panic := by
  cases input with
  | nil => simp at h
  | cons c0 rest =>
    simp only [List.length_cons] at h
    show unmarshalBody prev (c0 :: rest) c0 ((c0 :: rest).getLastD c0) ≠ UOut.panic
    unfold unmarshalBody
    split
    · simp
    · split
      · exact jsonStep_ne_panic prev (c0 :: rest)
      · split
        · next hlt => simp only [List.length_cons] at hlt; omega
        · exact finishParse_ne_panic _

/-- Witness for the amended C10 at a concrete input of length two. -/
theorem c10_amended_witness :
    BasicNet.UnmarshalJSON [] ['"', '"'] ≠ UOut.panic :=
  c10_amended [] ['"', '"'] (by decide)

/-! ## Claim C2 -/

/-- Demonstration for claim C2 (a code bug): on the Compatibility input
`"10.0.0.0/8,,192.168.0.0/16"` — every token empty or a valid CIDR — the
loop writes each parsed network at its original token index and then
truncates `skipped` slots from the end, so the result is
`[10.0.0.0/8, nil]`: the entry count (2) matches the number of non-empty
tokens, but the second parsed network `192.168.0.0/16` is lost and a nil
slot is kept instead. -/
theorem c2_interior_empty_token_corrupts :
    BasicNet.UnmarshalJSON [] "\"10.0.0.0/8,,192.168.0.0/16\"".data =
      UOut.ok [some ⟨[10, 0, 0, 0], [255, 0, 0, 0]⟩, none] ∧
    ([some ⟨[10, 0, 0, 0], [255, 0, 0, 0]⟩, none] : List (Option IPNet)) ≠
      [some ⟨[10, 0, 0, 0], [255, 0, 0, 0]⟩, some ⟨[192, 168, 0, 0], [255, 255, 0, 0]⟩] := by
  constructor
  · decide
  · decide

/-! ## Claim C9 -/

/-- Demonstration for claim C9 (a code bug): the successful
deserialization of `",10.0.0.0/8"` leaves the single entry `nil` (the
parsed network `10.0.0.0/8` was written into the truncated slot), and a
subsequent `Permitted` call on a valid IP dereferences that nil entry —
a runtime panic. -/
theorem c9_nil_entry_reachable :
    BasicNet.UnmarshalJSON [] "\",10.0.0.0/8\"".data = UOut.ok [none] ∧
    BasicNet.Permitted [none] [10, 0, 0, 1] = PermittedOut.panic := by
  constructor
  · decide
  · decide

/-! ## Claim C1 -/

/-- Counterexample to claim C1 as stated: on the shape-mismatch input
`"x"` (neither bracketed nor quoted) `UnmarshalJSON` returns an error
but leaves the previous single-entry whitelist in place — not zero
entries. -/
theorem c1_counterexample :
    BasicNet.UnmarshalJSON [some ⟨[10, 0, 0, 0], [255, 0, 0, 0]⟩] ['x'] =
      UOut.error errInvalidMsg [some ⟨[10, 0, 0, 0], [255, 0, 0, 0]⟩] ∧
    ([some ⟨[10, 0, 0, 0], [255, 0, 0, 0]⟩] : List (Option IPNet)) ≠ [] := by
  constructor
  · decide
  · decide

/-! ## Claim C6 -/

/-- Counterexample to claim C6 as stated: `UnmarshalJSON` inspects the
literal first and last bytes, not the first and last non-whitespace
bytes: the input `␣""` (a Compatibility encoding preceded by one space)
is rejected with the invalid-whitelist error, while the same input
without the space decodes successfully. -/
theorem c6_counterexample :
    BasicNet.UnmarshalJSON [] [' ', '"', '"'] = UOut.error errInvalidMsg [] ∧
    BasicNet.UnmarshalJSON [] ['"', '"'] = UOut.ok [] := by
  constructor
  · decide
  · decide

/-! ## Claim C7 -/

/-- Counterexample to claim C7 as stated: the trim-and-skip step of the
token loop applies to New-format elements as well, so the array `[""]`
with a single empty element deserializes successfully to zero entries
instead of producing a parse error. -/
theorem c7_counterexample :
    BasicNet.UnmarshalJSON [] "[\"\"]".data = UOut.ok [] := by decide

/-! ## Error classification of the token loop -/

theorem parseLoop_error_shape (nets : List (List Char)) (e : List Char)
    (h : parseLoop nets = Except.error e) : ∃ addr, e = netErrPre ++ addr := by
  induction nets with
  | nil => simp [parseLoop] at h
  | cons t ts ih =>
    unfold parseLoop at h
    cases hrec : parseLoop ts with
    | error e2 =>
      rw [hrec] at h
      split at h
      · cases h
        exact ih hrec
      · split at h
        · cases h
          exact ⟨trimSpace t, rfl⟩
        · cases h
          exact ih hrec
    | ok p =>
      obtain ⟨arr, k⟩ := p
      rw [hrec] at h
      split at h
      · cases h
      · split at h
        · cases h
          exact ⟨trimSpace t, rfl⟩
        · cases h

theorem finishParse_error (nets : List (List Char)) (msg : List Char)
    (after : List (Option IPNet)) (h : finishParse nets = UOut.error msg after) :
    after = [] ∧ netErrPre.isPrefixOf msg = true := by
  unfold finishParse at h
  cases hrec : parseLoop nets with
  | error e =>
    rw [hrec] at h
    cases h
    obtain ⟨addr, rfl⟩ := parseLoop_error_shape nets _ hrec
    exact ⟨rfl, by simp [List.isPrefixOf_iff_prefix]⟩
  | ok p => obtain ⟨arr, k⟩ := p; rw [hrec] at h; cases h

theorem jsonStep_error (prev : List (Option IPNet)) (input : List Char)
    (msg : List Char) (after : List (Option IPNet))
    (h : jsonStep prev input = UOut.error msg after) :
    (msg = jsonErrMsg ∧ after = prev) ∨ (after = [] ∧ netErrPre.isPrefixOf msg = true) := by
  unfold jsonStep at h
  cases hj : jsonUnmarshalStringArray input with
  | none => rw [hj] at h; cases h; exact Or.inl ⟨rfl, rfl⟩
  | some nets => rw [hj] at h; exact Or.inr (finishParse_error nets msg after h)

/-- Claim C1 as amended: when `UnmarshalJSON` returns an error, the state
of the entry collection depends on which stage failed — a CIDR-token
parse failure (message carrying the invalid-IP-network prefix) leaves
zero entries, while a shape-detection or JSON-array-decoding failure
returns before the receiver is touched and leaves the previous entries
unchanged. -/
theorem c1_amended (prev : List (Option IPNet)) (input : List Char)
    (msg : List Char) (after : List (Option IPNet))
    (h : BasicNet.UnmarshalJSON prev input = UOut.error msg after) :
    (netErrPre.isPrefixOf msg = true → after = []) ∧
    (netErrPre.isPrefixOf msg = false → after = prev) := by
  cases input with
  | nil => cases h
  | cons c0 rest =>
    replace h : unmarshalBody prev (c0 :: rest) c0 ((c0 :: rest).getLastD c0) =
      UOut.error msg after := h
    unfold unmarshalBody at h
    split at h
    · cases h
      refine ⟨fun hpre => absurd hpre (by decide), fun _ => rfl⟩
    · split at h
      · rcases jsonStep_error _ _ _ _ h with ⟨rfl, rfl⟩ | ⟨rfl, hpre⟩
        · exact ⟨fun hpre => absurd hpre (by decide), fun _ => rfl⟩
        · exact ⟨fun _ => rfl, fun hfalse => absurd hpre (by simp [hfalse])⟩
      · split at h
        · cases h
        · obtain ⟨rfl, hpre⟩ := finishParse_error _ _ _ h
          exact ⟨fun _ => rfl, fun hfalse => absurd hpre (by simp [hfalse])⟩

/-- Witness for the amended C1: deserializing `"zz"` over a one-entry
whitelist fails on the CIDR token `zz` and leaves zero entries. -/
theorem c1_amended_witness :
    (netErrPre.isPrefixOf (netErrPre ++ ['z', 'z']) = true →
      ([] : List (Option IPNet)) = []) ∧
    (netErrPre.isPrefixOf (netErrPre ++ ['z', 'z']) = false →
      ([] : List (Option IPNet)) = [some ⟨[10, 0, 0, 0], [255, 0, 0, 0]⟩]) :=
  c1_amended [some ⟨[10, 0, 0, 0], [255, 0, 0, 0]⟩] "\"zz\"".data
    (netErrPre ++ ['z', 'z']) [] (by decide)

/-- Claim C6 as amended: shape detection inspects the literal first and
last bytes of the input (no whitespace is skipped): for a non-empty
input, `UnmarshalJSON` fails with the descriptive invalid-whitelist
error, leaving the previous entries in place, exactly when the first and
last bytes are neither `'['`/`']'` nor `'"'`/`'"'`; an otherwise-valid
encoding surrounded by whitespace is therefore rejected, not decoded. -/
theorem c6_amended (prev : List (Option IPNet)) (c0 : Char) (rest : List Char) :
    BasicNet.UnmarshalJSON prev (c0 :: rest) = UOut.error errInvalidMsg prev ↔
      ¬((c0 = '[' ∧ (c0 :: rest).getLastD c0 = ']') ∨
        (c0 = '"' ∧ (c0 :: rest).getLastD c0 = '"')) := by
  constructor
  · intro h
    replace h : unmarshalBody prev (c0 :: rest) c0 ((c0 :: rest).getLastD c0) =
      UOut.error errInvalidMsg prev := h
    unfold unmarshalBody at h
    split at h
    · next hcond =>
      rintro (⟨h1, h2⟩ | ⟨h1, h2⟩)
      · subst h1
        rw [List.getLastD_eq_getLast?] at h2
        simp [h2] at hcond
      · subst h1
        rcases hcond.2 with hx | hx
        · exact hx rfl
        · exact hx h2
    · split at h
      · rcases jsonStep_error _ _ _ _ h with ⟨hmsg, _⟩ | ⟨_, hpre⟩
        · exact absurd hmsg (by decide)
        · exact absurd hpre (by decide)
      · split at h
        · cases h
        · obtain ⟨_, hpre⟩ := finishParse_error _ _ _ h
          exact absurd hpre (by decide)
  · intro hn
    have hA : ¬(c0 = '[' ∧ (c0 :: rest).getLastD c0 = ']') := fun hab => hn (Or.inl hab)
    have hB : ¬(c0 = '"' ∧ (c0 :: rest).getLastD c0 = '"') := fun hab => hn (Or.inr hab)
    show unmarshalBody prev (c0 :: rest) c0 ((c0 :: rest).getLastD c0) =
      UOut.error errInvalidMsg prev
    unfold unmarshalBody
    rw [if_pos]
    constructor
    · by_cases h1 : c0 = '['
      · subst h1
        have h2 : ¬(('[' :: rest).getLastD '[' = ']') := fun h2 => hA ⟨rfl, h2⟩
        rw [List.getLastD_eq_getLast?] at h2
        simp [h2]
      · simp [h1]
    · by_cases h1 : c0 = '"'
      · exact Or.inr fun h2 => hB ⟨h1, h2⟩
      · exact Or.inl h1

/-- Witness for the amended C6 at a concrete input whose first and last
bytes match neither shape. -/
theorem c6_amended_witness :
    BasicNet.UnmarshalJSON [] ['x', 'y'] = UOut.error errInvalidMsg [] :=
  (c6_amended [] 'x' ['y']).mpr (by decide)

theorem parseLoop_isError_iff (nets : List (List Char)) :
    (∃ e, parseLoop nets = Except.error e) ↔
      ∃ t ∈ nets, trimSpace t ≠ [] ∧ parseCIDR (trimSpace t) = none := by
  induction nets with
  | nil => simp [parseLoop]
  | cons t ts ih =>
    unfold parseLoop
    cases hrec : parseLoop ts with
    | error e2 =>
      have hts : ∃ t2 ∈ ts, trimSpace t2 ≠ [] ∧ parseCIDR (trimSpace t2) = none :=
        ih.mp ⟨e2, hrec⟩
      constructor
      · intro _
        obtain ⟨t2, ht2, h1, h2⟩ := hts
        exact ⟨t2, List.mem_cons_of_mem t ht2, h1, h2⟩
      · intro _
        split
        · exact ⟨e2, rfl⟩
        · split
          · exact ⟨_, rfl⟩
          · exact ⟨e2, rfl⟩
    | ok p =>
      obtain ⟨arr, k⟩ := p
      have hts : ¬∃ t2 ∈ ts, trimSpace t2 ≠ [] ∧ parseCIDR (trimSpace t2) = none := by
        intro hex
        obtain ⟨e2, he2⟩ := ih.mpr hex
        rw [hrec] at he2
        cases he2
      constructor
      · intro hex
        obtain ⟨e, he⟩ := hex
        split at he
        · cases he
        · next hne =>
          cases hp : parseCIDR (trimSpace t) with
          | none => exact ⟨t, List.mem_cons_self t ts, hne, hp⟩
          | some n => rw [hp] at he; cases he
      · rintro ⟨t2, ht2, h1, h2⟩
        rcases List.mem_cons.mp ht2 with rfl | hmem
        · rw [if_neg h1, h2]
          exact ⟨_, rfl⟩
        · exact absurd ⟨t2, hmem, h1, h2⟩ hts

theorem finishParse_isError_iff (nets : List (List Char)) :
    (∃ msg after, finishParse nets = UOut.error msg after) ↔
      ∃ t ∈ nets, trimSpace t ≠ [] ∧ parseCIDR (trimSpace t) = none := by
  rw [← parseLoop_isError_iff]
  unfold finishParse
  cases hrec : parseLoop nets with
  | error e => simp
  | ok p => obtain ⟨arr, k⟩ := p; simp

/-- Claim C7 as amended: the trim-and-skip of tokens applies to
New-format elements exactly as to Compatibility tokens — an element that
is empty (or all white space) after trimming is skipped, not preserved —
so on a New-format input whose JSON array decodes to `nets`,
`UnmarshalJSON` returns a parse error precisely when some element trims
to a non-empty string that fails CIDR parsing. -/
theorem c7_amended (prev : List (Option IPNet)) (c0 : Char) (rest : List Char)
    (nets : List (List Char))
    (hshape : c0 = '[' ∧ (c0 :: rest).getLastD c0 = ']')
    (hj : jsonUnmarshalStringArray (c0 :: rest) = some nets) :
    (∃ msg after, BasicNet.UnmarshalJSON prev (c0 :: rest) = UOut.error msg after) ↔
      ∃ t ∈ nets, trimSpace t ≠ [] ∧ parseCIDR (trimSpace t) = none := by
  show (∃ msg after,
      unmarshalBody prev (c0 :: rest) c0 ((c0 :: rest).getLastD c0) =
        UOut.error msg after) ↔ _
  unfold unmarshalBody
  obtain ⟨h1, h2⟩ := hshape
  subst h1
  rw [List.getLastD_eq_getLast?] at h2
  rw [if_neg (by simp [h2]), if_pos (by simp [h2])]
  unfold jsonStep
  rw [hj]
  exact finishParse_isError_iff nets

/-- Witness for the amended C7: `["x"]` decodes to one element `x`,
which is non-empty and not a CIDR, so deserialization errors. -/
theorem c7_amended_witness :
    ∃ msg after,
      BasicNet.UnmarshalJSON [] ('[' :: "\"x\"]".data) = UOut.error msg after :=
  (c7_amended [] '[' "\"x\"]".data [['x']] (by decide) (by decide)).mpr
    ⟨['x'], by decide, by decide, by decide⟩

/-! ## Decimal print/parse round trip -/

/-- Value of a big-endian decimal digit string, on top of accumulator
`a` (specification device for the `dtoi` lemmas). -/
def decValFrom (a : Nat) (s : List Char) : Nat :=
  s.foldl (fun x c => x * 10 + digitVal c) a

theorem decValFrom_append (a : Nat) (xs ys : List Char) :
    decValFrom a (xs ++ ys) = decValFrom (decValFrom a xs) ys :=
  List.foldl_append _ _ _ _

theorem decValFrom_ge (a : Nat) (s : List Char) : a ≤ decValFrom a s := by
  induction s generalizing a with
  | nil => exact Nat.le_refl a
  | cons c cs ih =>
    exact Nat.le_trans (by omega) (ih (a * 10 + digitVal c))

theorem digitVal_digitChar (d : Nat) (hd : d < 10) : digitVal (digitChar d) = d := by
  interval_cases d <;> decide

theorem isDigitChar_digitChar (d : Nat) (hd : d < 10) :
    isDigitChar (digitChar d) = true := by
  interval_cases d <;> decide

theorem digitChar_ne_zero (d : Nat) (hd : d < 10) (h0 : d ≠ 0) : digitChar d ≠ '0' := by
  interval_cases d
  · exact absurd rfl h0
  all_goals decide

theorem natToCharsAux_zero (fuel : Nat) : natToCharsAux fuel 0 = [] := by
  cases fuel <;> simp [natToCharsAux]

theorem natToCharsAux_val (fuel : Nat) : ∀ n a, n ≤ fuel →
    decValFrom a (natToCharsAux fuel n) =
      a * 10 ^ (natToCharsAux fuel n).length + n := by
  induction fuel with
  | zero =>
    intro n a h
    interval_cases n
    simp [natToCharsAux, decValFrom]
  | succ f ih =>
    intro n a h
    by_cases hn : n = 0
    · subst hn; simp [natToCharsAux, decValFrom]
    · rw [natToCharsAux, if_neg hn, decValFrom_append]
      have hle : n / 10 ≤ f := by
        have : n / 10 < n := Nat.div_lt_self (Nat.pos_of_ne_zero hn) (by omega)
        omega
      have hrec := ih (n / 10) a hle
      have hsing : ∀ x, decValFrom x [digitChar (n % 10)] = x * 10 + (n % 10) := by
        intro x
        show x * 10 + digitVal (digitChar (n % 10)) = x * 10 + n % 10
        rw [digitVal_digitChar _ (Nat.mod_lt _ (by decide))]
      rw [hsing, hrec, List.length_append, List.length_singleton]
      calc (a * 10 ^ (natToCharsAux f (n / 10)).length + n / 10) * 10 + n % 10
          = a * (10 ^ (natToCharsAux f (n / 10)).length * 10) +
              (10 * (n / 10) + n % 10) := by ring
        _ = a * 10 ^ ((natToCharsAux f (n / 10)).length + 1) + n := by
            rw [Nat.div_add_mod, pow_succ]

theorem decVal_natToChars (n : Nat) : decValFrom 0 (natToChars n) = n := by
  unfold natToChars
  by_cases hn : n = 0
  · subst hn; decide
  · rw [if_neg hn]
    have := natToCharsAux_val n n 0 (Nat.le_refl n)
    simpa using this

theorem natToCharsAux_digits (fuel : Nat) : ∀ n, ∀ c ∈ natToCharsAux fuel n,
    isDigitChar c = true := by
  induction fuel with
  | zero => intro n c hc; simp [natToCharsAux] at hc
  | succ f ih =>
    intro n c hc
    by_cases hn : n = 0
    · subst hn; simp [natToCharsAux] at hc
    · rw [natToCharsAux, if_neg hn] at hc
      rcases List.mem_append.mp hc with h | h
      · exact ih _ c h
      · rw [List.mem_singleton.mp h]
        exact isDigitChar_digitChar _ (Nat.mod_lt _ (by decide))

theorem natToChars_digits (n : Nat) : ∀ c ∈ natToChars n, isDigitChar c = true := by
  unfold natToChars
  by_cases hn : n = 0
  · subst hn; intro c hc; simp at hc; rw [hc]; decide
  · rw [if_neg hn]; exact natToCharsAux_digits n n

theorem natToCharsAux_ne_nil (fuel n : Nat) (hn : n ≠ 0) (h : n ≤ fuel) :
    natToCharsAux fuel n ≠ [] := by
  cases fuel with
  | zero => omega
  | succ f => rw [natToCharsAux, if_neg hn]; simp

theorem natToChars_ne_nil (n : Nat) : natToChars n ≠ [] := by
  unfold natToChars
  by_cases hn : n = 0
  · subst hn; simp
  · rw [if_neg hn]; exact natToCharsAux_ne_nil n n hn (Nat.le_refl n)

theorem div10_le (n f : Nat) (hn : n ≠ 0) (h : n ≤ f + 1) : n / 10 ≤ f := by
  have : n / 10 < n := Nat.div_lt_self (Nat.pos_of_ne_zero hn) (by omega)
  omega

theorem natToCharsAux_head (fuel : Nat) : ∀ n, n ≠ 0 → n ≤ fuel →
    ∀ c, (natToCharsAux fuel n).head? = some c → c ≠ '0' := by
  induction fuel with
  | zero => intro n hn h; omega
  | succ f ih =>
    intro n hn h c hc
    rw [natToCharsAux, if_neg hn] at hc
    by_cases h10 : n / 10 = 0
    · rw [h10, natToCharsAux_zero, List.nil_append, List.head?_cons,
        Option.some.injEq] at hc
      subst hc
      have hlt : n < 10 := by omega
      exact digitChar_ne_zero _ (Nat.mod_lt _ (by omega)) (by omega)
    · have hne := natToCharsAux_ne_nil f (n / 10) h10 (div10_le n f hn h)
      rw [List.head?_append_of_ne_nil _ hne] at hc
      exact ih (n / 10) h10 (div10_le n f hn h) c hc

theorem dtoiAux_append (ds : List Char) : ∀ (rest : List Char) (a i : Nat),
    ds ≠ [] → (∀ c ∈ ds, isDigitChar c = true) →
    decValFrom a ds < dtoiBig →
    (∀ c, rest.head? = some c → isDigitChar c = false) →
    dtoiAux (ds ++ rest) a i = (decValFrom a ds, i + ds.length, true) := by
  induction ds with
  | nil => intro rest a i hne; exact absurd rfl hne
  | cons d ds ih =>
    intro rest a i _ hdig hlt hrest
    have hd : isDigitChar d = true := hdig d (List.mem_cons_self d ds)
    have hstep : decValFrom a (d :: ds) = decValFrom (a * 10 + digitVal d) ds := rfl
    have hn2 : a * 10 + digitVal d ≤ decValFrom a (d :: ds) := by
      rw [hstep]; exact decValFrom_ge _ _
    rw [List.cons_append, dtoiAux, if_pos hd, if_neg (by omega)]
    by_cases hds : ds = []
    · subst hds
      cases rest with
      | nil =>
        rw [List.nil_append, dtoiAux, if_neg (by omega)]
        show _ = (decValFrom a [d], i + 1, true)
        rfl
      | cons c cs =>
        have hc := hrest c rfl
        rw [List.nil_append, dtoiAux, if_neg (by simp [hc]), if_neg (by omega)]
        show _ = (decValFrom a [d], i + 1, true)
        rfl
    · rw [ih rest (a * 10 + digitVal d) (i + 1) hds
        (fun c hc => hdig c (List.mem_cons_of_mem d hc))
        (by rw [← hstep]; exact hlt) hrest]
      rw [← hstep, List.length_cons]
      have : i + 1 + ds.length = i + (ds.length + 1) := by omega
      rw [this]

theorem dtoi_natToChars (b : Nat) (rest : List Char) (hb : b < dtoiBig)
    (hrest : ∀ c, rest.head? = some c → isDigitChar c = false) :
    dtoi (natToChars b ++ rest) = (b, (natToChars b).length, true) := by
  unfold dtoi
  rw [dtoiAux_append (natToChars b) rest 0 0 (natToChars_ne_nil b)
    (natToChars_digits b) (by rw [decVal_natToChars]; exact hb) hrest]
  rw [decVal_natToChars, Nat.zero_add]

theorem natToChars_short (b : Nat) (hb : b < 10) : (natToChars b).length = 1 := by
  interval_cases b <;> decide

theorem parseField_natToChars (b : Nat) (rest : List Char) (hb : b < 256)
    (hrest : ∀ c, rest.head? = some c → isDigitChar c = false) :
    parseField (natToChars b ++ rest) = some (b, rest) := by
  unfold parseField
  rw [dtoi_natToChars b rest (by unfold dtoiBig; omega) hrest]
  dsimp only
  rw [if_neg (by simp; omega)]
  rw [if_neg ?notzero]
  · rw [List.drop_left]
  case notzero =>
    rintro ⟨hlen, hhead⟩
    by_cases hsmall : b < 10
    · rw [natToChars_short b hsmall] at hlen; omega
    · rw [List.head?_append_of_ne_nil _ (natToChars_ne_nil b)] at hhead
      have hb0 : b ≠ 0 := by omega
      have := natToCharsAux_head b b hb0 (Nat.le_refl b)
      rw [show natToChars b = natToCharsAux b b by
        unfold natToChars; rw [if_neg hb0]] at hhead
      exact this '0' hhead rfl

theorem parseField_natToChars_nil (b : Nat) (hb : b < 256) :
    parseField (natToChars b) = some (b, []) := by
  have := parseField_natToChars b [] hb (by intro x hx; simp at hx)
  rwa [List.append_nil] at this

theorem head_dot_not_digit (R : List Char) :
    ∀ x, (('.' :: R).head? = some x) → isDigitChar x = false := by
  intro x hx
  rw [List.head?_cons, Option.some.injEq] at hx
  rw [← hx]
  decide

theorem expectDot_cons (r : List Char) : expectDot ('.' :: r) = some r := by
  simp [expectDot]

theorem parseIPv4_dotted (a b c d : Nat)
    (ha : a < 256) (hb : b < 256) (hc : c < 256) (hd : d < 256) :
    parseIPv4 (natToChars a ++ '.' ::
      (natToChars b ++ '.' :: (natToChars c ++ '.' :: natToChars d))) =
      some [a, b, c, d] := by
  unfold parseIPv4
  rw [parseField_natToChars a _ ha (head_dot_not_digit _)]
  dsimp only
  rw [expectDot_cons]
  dsimp only
  rw [parseField_natToChars b _ hb (head_dot_not_digit _)]
  dsimp only
  rw [expectDot_cons]
  dsimp only
  rw [parseField_natToChars c _ hc (head_dot_not_digit _)]
  dsimp only
  rw [expectDot_cons]
  dsimp only
  rw [parseField_natToChars_nil d hd]
  simp

theorem cidrMaskBytes_length (o k : Nat) : (cidrMaskBytes o k).length = k := by
  induction k generalizing o with
  | zero => rfl
  | succ j ih =>
    unfold cidrMaskBytes
    split <;> simp [ih]

theorem simpleMaskLength_cidrMask4 : ∀ k < 33, simpleMaskLength (cidrMask4 k) = some k := by
  decide

theorem and_mask_idem (x m : Nat) : x &&& m &&& m = x &&& m := by
  apply Nat.eq_of_testBit_eq
  intro i
  simp [Nat.testBit_and, Bool.and_assoc]

theorem maskBytes_idem (bs : List Nat) : ∀ m, maskBytes (maskBytes bs m) m = maskBytes bs m := by
  induction bs with
  | nil => intro m; rfl
  | cons x xs ih =>
    intro m
    cases m with
    | nil => rfl
    | cons y ys =>
      show (x &&& y &&& y) :: maskBytes (maskBytes xs ys) ys = (x &&& y) :: maskBytes xs ys
      rw [and_mask_idem, ih ys]

theorem maskBytes_lt (bs : List Nat) : ∀ m, (∀ x ∈ bs, x < 256) →
    ∀ x ∈ maskBytes bs m, x < 256 := by
  induction bs with
  | nil => intro m _ x hx; simp [maskBytes] at hx
  | cons b bs ih =>
    intro m hb x hx
    cases m with
    | nil => simp [maskBytes] at hx
    | cons y ys =>
      simp only [maskBytes, List.zipWith_cons_cons, List.mem_cons] at hx
      rcases hx with rfl | hx
      · exact Nat.lt_of_le_of_lt Nat.and_le_left (hb b (List.mem_cons_self b bs))
      · exact ih ys (fun z hz => hb z (List.mem_cons_of_mem b hz)) x hx

theorem parseField_inv (s : List Char) (b : Nat) (r : List Char)
    (h : parseField s = some (b, r)) : b < 256 := by
  unfold parseField at h
  rcases hd : dtoi s with ⟨n, c, ok⟩
  rw [hd] at h
  dsimp only at h
  split at h
  · cases h
  · next hcond =>
    split at h
    · cases h
    · cases h
      omega

theorem parseIPv4_inv (s : List Char) (bs : List Nat) (h : parseIPv4 s = some bs) :
    bs.length = 4 ∧ ∀ x ∈ bs, x < 256 := by
  unfold parseIPv4 at h
  cases h0 : parseField s with
  | none => rw [h0] at h; cases h
  | some p0 =>
    obtain ⟨b0, r0⟩ := p0
    rw [h0] at h; dsimp only at h
    cases hd0 : expectDot r0 with
    | none => rw [hd0] at h; cases h
    | some s1 =>
      rw [hd0] at h; dsimp only at h
      cases h1 : parseField s1 with
      | none => rw [h1] at h; cases h
      | some p1 =>
        obtain ⟨b1, r1⟩ := p1
        rw [h1] at h; dsimp only at h
        cases hd1 : expectDot r1 with
        | none => rw [hd1] at h; cases h
        | some s2 =>
          rw [hd1] at h; dsimp only at h
          cases h2 : parseField s2 with
          | none => rw [h2] at h; cases h
          | some p2 =>
            obtain ⟨b2, r2⟩ := p2
            rw [h2] at h; dsimp only at h
            cases hd2 : expectDot r2 with
            | none => rw [hd2] at h; cases h
            | some s3 =>
              rw [hd2] at h; dsimp only at h
              cases h3 : parseField s3 with
              | none => rw [h3] at h; cases h
              | some p3 =>
                obtain ⟨b3, r3⟩ := p3
                rw [h3] at h; dsimp only at h
                split at h
                · cases h
                  refine ⟨rfl, ?_⟩
                  intro x hx
                  simp only [List.mem_cons, List.not_mem_nil, or_false] at hx
                  rcases hx with rfl | rfl | rfl | rfl
                  · exact parseField_inv _ _ _ h0
                  · exact parseField_inv _ _ _ h1
                  · exact parseField_inv _ _ _ h2
                  · exact parseField_inv _ _ _ h3
                · cases h

theorem parseCIDR_shape (s : List Char) (n : IPNet) (h : parseCIDR s = some n) :
    ∃ bs k, bs.length = 4 ∧ (∀ x ∈ bs, x < 256) ∧ k ≤ 32 ∧
      n = ⟨maskBytes bs (cidrMask4 k), cidrMask4 k⟩ := by
  unfold parseCIDR at h
  cases hf : s.findIdx? (fun c => c == '/') with
  | none => rw [hf] at h; cases h
  | some i =>
    rw [hf] at h; dsimp only at h
    cases hp : parseIPv4 (s.take i) with
    | none => rw [hp] at h; cases h
    | some bs =>
      rw [hp] at h; dsimp only at h
      rcases hd : dtoi (s.drop (i + 1)) with ⟨k, c, ok⟩
      rw [hd] at h; dsimp only at h
      split at h
      · next hcond =>
        cases h
        obtain ⟨hlen, hbound⟩ := parseIPv4_inv _ _ hp
        exact ⟨bs, k, hlen, hbound, hcond.2.2, rfl⟩
      · cases h

theorem ipTo4_len4 (ip : List Nat) (h : ip.length = 4) : ipTo4 ip = some ip := by
  unfold ipTo4
  rw [if_pos h]

theorem ipString_len4 (ip : List Nat) (h : ip.length = 4) : ipString ip = dotted ip := by
  unfold ipString
  rw [if_neg (by omega), ipTo4_len4 _ h]

theorem netString_masked (bs : List Nat) (k : Nat) (hlen : bs.length = 4) (hk : k ≤ 32) :
    netString ⟨maskBytes bs (cidrMask4 k), cidrMask4 k⟩ =
      dotted (maskBytes bs (cidrMask4 k)) ++ '/' :: natToChars k := by
  have hmlen : (cidrMask4 k).length = 4 := cidrMaskBytes_length k 4
  have hblen : (maskBytes bs (cidrMask4 k)).length = 4 := by
    simp [maskBytes, hlen, hmlen]
  unfold netString networkNumberAndMask
  rw [ipTo4_len4 _ hblen]
  dsimp only
  rw [if_pos hmlen]
  dsimp only
  rw [simpleMaskLength_cidrMask4 k (by omega)]
  dsimp only
  rw [ipString_len4 _ hblen]

theorem dotted_four (a b c d : Nat) :
    dotted [a, b, c, d] = natToChars a ++ '.' ::
      (natToChars b ++ '.' :: (natToChars c ++ '.' :: natToChars d)) := by
  simp [dotted, List.intercalate, List.intersperse]

theorem list_len4 (bs : List Nat) (h : bs.length = 4) :
    ∃ a b c d, bs = [a, b, c, d] := by
  match bs, h with
  | [a, b, c, d], _ => exact ⟨a, b, c, d, rfl⟩

theorem natToChars_mem (n : Nat) : ∀ c ∈ natToChars n, ∃ d, d < 10 ∧ c = digitChar d := by
  have aux : ∀ fuel n, ∀ c ∈ natToCharsAux fuel n, ∃ d, d < 10 ∧ c = digitChar d := by
    intro fuel
    induction fuel with
    | zero => intro n c hc; simp [natToCharsAux] at hc
    | succ f ih =>
      intro n c hc
      by_cases hn : n = 0
      · subst hn; simp [natToCharsAux] at hc
      · rw [natToCharsAux, if_neg hn] at hc
        rcases List.mem_append.mp hc with h | h
        · exact ih _ c h
        · exact ⟨n % 10, Nat.mod_lt _ (by omega), List.mem_singleton.mp h⟩
  unfold natToChars
  by_cases hn : n = 0
  · subst hn
    intro c hc
    rw [List.mem_singleton.mp hc]
    exact ⟨0, by omega, rfl⟩
  · rw [if_neg hn]
    exact aux n n

theorem mem_intersperse_lists {α : Type} (sep : List α) (l : List (List α)) :
    ∀ x ∈ l.intersperse sep, x = sep ∨ x ∈ l := by
  induction l with
  | nil => intro x hx; simp at hx
  | cons a t ih =>
    intro x hx
    cases t with
    | nil =>
      simp only [List.intersperse_single, List.mem_singleton] at hx
      exact Or.inr (by rw [hx]; exact List.mem_singleton_self a)
    | cons b t2 =>
      rw [List.intersperse_cons_cons] at hx
      rcases List.mem_cons.mp hx with rfl | hx
      · exact Or.inr (List.mem_cons_self _ _)
      · rcases List.mem_cons.mp hx with rfl | hx
        · exact Or.inl rfl
        · rcases ih x hx with h | h
          · exact Or.inl h
          · exact Or.inr (List.mem_cons_of_mem _ h)

theorem mem_intercalate {α : Type} (sep : List α) (l : List (List α)) (c : α)
    (hc : c ∈ List.intercalate sep l) : c ∈ sep ∨ ∃ x ∈ l, c ∈ x := by
  rw [List.intercalate] at hc
  obtain ⟨x, hx, hcx⟩ := List.mem_flatten.mp hc
  rcases mem_intersperse_lists sep l x hx with rfl | hxl
  · exact Or.inl hcx
  · exact Or.inr ⟨x, hxl, hcx⟩

theorem mem_dotted (bs : List Nat) (c : Char) (hc : c ∈ dotted bs) :
    (∃ d, d < 10 ∧ c = digitChar d) ∨ c = '.' := by
  rcases mem_intercalate ['.'] (bs.map natToChars) c hc with h | ⟨x, hx, hcx⟩
  · exact Or.inr (List.mem_singleton.mp h)
  · obtain ⟨b, _, rfl⟩ := List.mem_map.mp hx
    exact Or.inl (natToChars_mem b c hcx)

theorem dotChar_ne_slash (c : Char)
    (h : (∃ d, d < 10 ∧ c = digitChar d) ∨ c = '.') : (c == '/') = false := by
  rcases h with ⟨d, hd, rfl⟩ | rfl
  · interval_cases d <;> decide
  · decide

theorem findIdx?_slash (pre : List Char) (post : List Char)
    (hpre : ∀ c ∈ pre, (c == '/') = false) :
    (pre ++ '/' :: post).findIdx? (fun c => c == '/') = some pre.length := by
  induction pre with
  | nil => simp [List.findIdx?_cons]
  | cons c cs ih =>
    rw [List.cons_append, List.findIdx?_cons,
      if_neg (by simp [hpre c (List.mem_cons_self c cs)]),
      List.findIdx?_start_succ,
      ih fun x hx => hpre x (List.mem_cons_of_mem c hx)]
    simp

theorem dtoi_natToChars_nil (b : Nat) (hb : b < dtoiBig) :
    dtoi (natToChars b) = (b, (natToChars b).length, true) := by
  have := dtoi_natToChars b [] hb (by intro x hx; simp at hx)
  rwa [List.append_nil] at this

/-- Canonicalization fixed point: re-parsing the canonical string of a
parsed network yields the same network (the address is already masked,
and masking is idempotent). -/
theorem parseCIDR_netString (s : List Char) (n : IPNet) (h : parseCIDR s = some n) :
    parseCIDR (netString n) = some n := by
  obtain ⟨bs, k, hlen, hbound, hk, rfl⟩ := parseCIDR_shape s n h
  have hmblen : (maskBytes bs (cidrMask4 k)).length = 4 := by
    simp [maskBytes, hlen, cidrMask4, cidrMaskBytes_length]
  have hmbbound := maskBytes_lt bs (cidrMask4 k) hbound
  have hidem := maskBytes_idem bs (cidrMask4 k)
  obtain ⟨a, b, c, d, habc⟩ := list_len4 _ hmblen
  rw [netString_masked bs k hlen hk, habc]
  rw [habc] at hidem hmbbound
  unfold parseCIDR
  rw [findIdx?_slash (dotted [a, b, c, d]) (natToChars k)
    (fun x hx => dotChar_ne_slash x (mem_dotted _ x hx))]
  dsimp only
  rw [List.take_left, List.append_cons, List.drop_left' (by simp)]
  rw [dotted_four, parseIPv4_dotted a b c d
    (hmbbound a (by simp)) (hmbbound b (by simp))
    (hmbbound c (by simp)) (hmbbound d (by simp))]
  dsimp only
  rw [dtoi_natToChars_nil k (by unfold dtoiBig; omega)]
  dsimp only
  rw [if_pos ⟨rfl, rfl, hk⟩, hidem]

theorem goodChar_facts (c : Char)
    (h : (∃ d, d < 10 ∧ c = digitChar d) ∨ c = '.' ∨ c = '/') :
    c ≠ ',' ∧ c ≠ '"' ∧ c ≠ '\\' ∧ isSpaceChar c = false ∧ ¬(c.toNat < 32) := by
  rcases h with ⟨d, hd, rfl⟩ | rfl | rfl
  · interval_cases d <;> decide
  · decide
  · decide

theorem mem_netString_parsed (s : List Char) (n : IPNet) (h : parseCIDR s = some n) :
    ∀ c ∈ netString n, (∃ d, d < 10 ∧ c = digitChar d) ∨ c = '.' ∨ c = '/' := by
  obtain ⟨bs, k, hlen, hbound, hk, rfl⟩ := parseCIDR_shape s n h
  rw [netString_masked bs k hlen hk]
  intro c hc
  rcases List.mem_append.mp hc with h1 | h1
  · rcases mem_dotted _ c h1 with h2 | h2
    · exact Or.inl h2
    · exact Or.inr (Or.inl h2)
  · rcases List.mem_cons.mp h1 with rfl | h2
    · exact Or.inr (Or.inr rfl)
    · exact Or.inl (natToChars_mem k c h2)

theorem netString_parsed_ne_nil (s : List Char) (n : IPNet)
    (h : parseCIDR s = some n) : netString n ≠ [] := by
  obtain ⟨bs, k, hlen, _, hk, rfl⟩ := parseCIDR_shape s n h
  rw [netString_masked bs k hlen hk]
  exact List.append_ne_nil_of_right_ne_nil _ (by simp)

theorem dropWhile_eq_self_of_not (p : Char → Bool) (l : List Char)
    (h : ∀ c ∈ l, p c = false) : l.dropWhile p = l := by
  cases l with
  | nil => rfl
  | cons c cs =>
    rw [List.dropWhile_cons, if_neg (by simp [h c (List.mem_cons_self c cs)])]

theorem trimSpace_of_no_space (l : List Char)
    (h : ∀ c ∈ l, isSpaceChar c = false) : trimSpace l = l := by
  unfold trimSpace
  rw [dropWhile_eq_self_of_not _ _ h,
    dropWhile_eq_self_of_not _ _ (fun c hc => h c (List.mem_reverse.mp hc)),
    List.reverse_reverse]

theorem parseLoop_all_valid (ts : List (List Char))
    (h : ∀ t ∈ ts, trimSpace t = t ∧ t ≠ [] ∧ (parseCIDR t).isSome) :
    parseLoop ts = Except.ok (ts.map parseCIDR, 0) := by
  induction ts with
  | nil => rfl
  | cons t ts ih =>
    obtain ⟨htrim, hne, hsome⟩ := h t (List.mem_cons_self t ts)
    unfold parseLoop
    rw [ih fun x hx => h x (List.mem_cons_of_mem t hx)]
    dsimp only
    rw [htrim, if_neg hne]
    obtain ⟨n, hn⟩ := Option.isSome_iff_exists.mp hsome
    rw [hn]
    dsimp only
    rw [List.map_cons, hn]

theorem finishParse_all_valid (ts : List (List Char))
    (h : ∀ t ∈ ts, trimSpace t = t ∧ t ≠ [] ∧ (parseCIDR t).isSome) :
    finishParse ts = UOut.ok (ts.map parseCIDR) := by
  unfold finishParse
  rw [parseLoop_all_valid ts h]
  dsimp only
  rw [Nat.sub_zero, List.take_length]

theorem map_parseCIDR_netString (ns : List IPNet)
    (hv : ∀ n ∈ ns, ∃ s, parseCIDR s = some n) :
    (ns.map netString).map parseCIDR = ns.map some := by
  rw [List.map_map]
  exact List.map_congr_left fun n hn => by
    obtain ⟨s, hs⟩ := hv n hn
    exact parseCIDR_netString s n hs

theorem netString_token_good (ns : List IPNet)
    (hv : ∀ n ∈ ns, ∃ s, parseCIDR s = some n) :
    ∀ t ∈ ns.map netString, trimSpace t = t ∧ t ≠ [] ∧ (parseCIDR t).isSome := by
  intro t ht
  obtain ⟨n, hn, rfl⟩ := List.mem_map.mp ht
  obtain ⟨s, hs⟩ := hv n hn
  refine ⟨trimSpace_of_no_space _ ?_, netString_parsed_ne_nil s n hs, ?_⟩
  · intro c hc
    exact (goodChar_facts c (mem_netString_parsed s n hs c hc)).2.2.2.1
  · rw [parseCIDR_netString s n hs]
    rfl

theorem unmarshal_compat_roundtrip (ns : List IPNet) (prev : List (Option IPNet))
    (hv : ∀ n ∈ ns, ∃ s, parseCIDR s = some n) :
    BasicNet.UnmarshalJSON prev
      ('"' :: ([','].intercalate (ns.map netString) ++ ['"'])) =
      UOut.ok (ns.map some) := by
  have hlast : ('"' :: ([','].intercalate (ns.map netString) ++ ['"'])).getLastD '"' = '"' := by
    rw [List.getLastD_eq_getLast?, ← List.cons_append, List.getLast?_concat]
    rfl
  show unmarshalBody prev _ '"'
    (('"' :: ([','].intercalate (ns.map netString) ++ ['"'])).getLastD '"') = _
  rw [hlast]
  unfold unmarshalBody
  rw [if_neg (by simp), if_neg (by simp), if_neg (by simp)]
  rw [show ((('"' :: ([','].intercalate (ns.map netString) ++ ['"'])).drop 1).dropLast) =
      [','].intercalate (ns.map netString) by
    simp]
  have hchars : ∀ c ∈ [','].intercalate (ns.map netString), isSpaceChar c = false := by
    intro c hc
    rcases mem_intercalate [','] (ns.map netString) c hc with h1 | ⟨x, hx, hcx⟩
    · rw [List.mem_singleton.mp h1]; decide
    · obtain ⟨n, hn, rfl⟩ := List.mem_map.mp hx
      obtain ⟨s, hs⟩ := hv n hn
      exact (goodChar_facts c (mem_netString_parsed s n hs c hcx)).2.2.2.1
  rw [trimSpace_of_no_space _ hchars]
  cases ns with
  | nil => rfl
  | cons n0 ns' =>
    rw [List.splitOn_intercalate (List.map netString (n0 :: ns')) ','
      (by
        intro l hl hcomma
        obtain ⟨n, hn, rfl⟩ := List.mem_map.mp hl
        obtain ⟨s, hs⟩ := hv n hn
        exact (goodChar_facts ',' (mem_netString_parsed s n hs ',' hcomma)).1 rfl)
      (by rw [List.map_cons]; exact List.cons_ne_nil _ _)]
    rw [finishParse_all_valid _ (netString_token_good _ hv),
      map_parseCIDR_netString _ hv]

theorem skipWs_not_ws (c : Char) (r : List Char) (h : jsonWs c = false) :
    skipWs (c :: r) = c :: r := by
  unfold skipWs
  rw [List.dropWhile_cons, if_neg (by simp [h])]

theorem parseJString_good (str : List Char) : ∀ rest : List Char,
    (∀ c ∈ str, c ≠ '"' ∧ c ≠ '\\' ∧ ¬(c.toNat < 32)) →
    parseJString (str ++ '"' :: rest) = some (str, rest) := by
  induction str with
  | nil =>
    intro rest _
    rw [List.nil_append]
    unfold parseJString
    rw [if_pos rfl]
  | cons c cs ih =>
    intro rest h
    obtain ⟨h1, h2, h3⟩ := h c (List.mem_cons_self c cs)
    rw [List.cons_append]
    unfold parseJString
    rw [if_neg h1, if_neg h2, if_neg h3,
      ih rest fun x hx => h x (List.mem_cons_of_mem c hx)]
    rfl

theorem parseElem_string (str rest : List Char)
    (h : ∀ c ∈ str, c ≠ '"' ∧ c ≠ '\\' ∧ ¬(c.toNat < 32)) :
    parseElem ('"' :: (str ++ '"' :: rest)) = some (str, rest) := by
  unfold parseElem
  dsimp only
  rw [if_pos rfl, parseJString_good str rest h]

theorem intercalate_single {α : Type} (sep : List α) (x : List α) :
    sep.intercalate [x] = x := by
  simp [List.intercalate]

theorem intercalate_cons₂ {α : Type} (sep : List α) (a b : List α) (t : List (List α)) :
    sep.intercalate (a :: b :: t) = a ++ sep ++ sep.intercalate (b :: t) := by
  simp [List.intercalate, List.intersperse_cons_cons]

theorem le_intercalate_length (ss : List (List Char)) :
    ss.length ≤ (['"', ',', '"'].intercalate ss).length + 1 := by
  induction ss with
  | nil => simp
  | cons a t ih =>
    cases t with
    | nil => simp [intercalate_single]
    | cons b t2 =>
      rw [intercalate_cons₂]
      simp only [List.length_cons, List.length_append] at ih ⊢
      omega

theorem parseItems_encoded (ss : List (List Char)) : ∀ fuel : Nat, ss ≠ [] →
    (∀ t ∈ ss, ∀ c ∈ t, c ≠ '"' ∧ c ≠ '\\' ∧ ¬(c.toNat < 32)) →
    ss.length ≤ fuel →
    parseItems fuel ('"' :: (['"', ',', '"'].intercalate ss ++ ['"', ']'])) =
      some (ss, []) := by
  induction ss with
  | nil => intro fuel hne; exact absurd rfl hne
  | cons t ts ih =>
    intro fuel _ hgood hfuel
    cases fuel with
    | zero => simp at hfuel
    | succ f =>
      unfold parseItems
      cases ts with
      | nil =>
        rw [intercalate_single]
        rw [show t ++ ['"', ']'] = t ++ '"' :: [']'] from rfl]
        rw [parseElem_string t [']'] (hgood t (List.mem_cons_self t []))]
        dsimp only
        rw [skipWs_not_ws ']' [] (by decide)]
        dsimp only
        rw [if_neg (by decide), if_pos rfl]
      | cons t2 ts2 =>
        rw [intercalate_cons₂]
        rw [show (t ++ ['"', ',', '"'] ++ ['"', ',', '"'].intercalate (t2 :: ts2)) ++
            ['"', ']'] =
          t ++ '"' :: (',' :: '"' ::
            (['"', ',', '"'].intercalate (t2 :: ts2) ++ ['"', ']'])) by simp]
        rw [parseElem_string t _ (hgood t (List.mem_cons_self t (t2 :: ts2)))]
        dsimp only
        rw [skipWs_not_ws ',' _ (by decide)]
        dsimp only
        rw [if_pos rfl]
        rw [skipWs_not_ws '"' _ (by decide)]
        rw [ih f (List.cons_ne_nil t2 ts2)
          (fun x hx => hgood x (List.mem_cons_of_mem t hx))
          (by simp at hfuel ⊢; omega)]
        rfl

theorem jsonUnmarshal_encoded (t : List Char) (ts : List (List Char))
    (hgood : ∀ x ∈ t :: ts, ∀ c ∈ x, c ≠ '"' ∧ c ≠ '\\' ∧ ¬(c.toNat < 32)) :
    jsonUnmarshalStringArray
      ('[' :: '"' :: (['"', ',', '"'].intercalate (t :: ts) ++ ['"', ']'])) =
      some (t :: ts) := by
    unfold jsonUnmarshalStringArray
    rw [skipWs_not_ws '[' _ (by decide)]
    dsimp only
    rw [if_pos rfl]
    rw [skipWs_not_ws '"' _ (by decide)]
    dsimp only
    rw [if_neg (by decide)]
    rw [parseItems_encoded (t :: ts) _ (List.cons_ne_nil t ts) hgood
      (by
        have := le_intercalate_length (t :: ts)
        simp only [List.length_cons, List.length_append] at this ⊢
        omega)]
    rfl

theorem unmarshal_new_roundtrip (ns : List IPNet) (prev : List (Option IPNet))
    (hv : ∀ n ∈ ns, ∃ s, parseCIDR s = some n) :
    BasicNet.UnmarshalJSON prev
      (match ns.map netString with
        | [] => "[]".data
        | ss => '[' :: '"' :: (['"', ',', '"'].intercalate ss ++ ['"', ']'])) =
      UOut.ok (ns.map some) := by
  cases ns with
  | nil => rfl
  | cons n0 ns' =>
    rw [List.map_cons]
    dsimp only
    have hgood : ∀ t ∈ (n0 :: ns').map netString, ∀ c ∈ t,
        c ≠ '"' ∧ c ≠ '\\' ∧ ¬(c.toNat < 32) := by
      intro t ht c hc
      obtain ⟨n, hn, rfl⟩ := List.mem_map.mp ht
      obtain ⟨s, hs⟩ := hv n hn
      have hf := goodChar_facts c (mem_netString_parsed s n hs c hc)
      exact ⟨hf.2.1, hf.2.2.1, hf.2.2.2.2⟩
    have hj := jsonUnmarshal_encoded (netString n0) (ns'.map netString)
      fun x hx => hgood x (by rw [List.map_cons]; exact hx)
    have hlast : ('[' :: '"' ::
        (['"', ',', '"'].intercalate (netString n0 :: ns'.map netString) ++
          ['"', ']'])).getLastD '[' = ']' := by
      rw [List.getLastD_eq_getLast?,
        show ('[' :: '"' ::
            (['"', ',', '"'].intercalate (netString n0 :: ns'.map netString) ++
              ['"', ']'])) =
          ('[' :: '"' ::
            (['"', ',', '"'].intercalate (netString n0 :: ns'.map netString) ++
              ['"'])) ++ [']'] by simp,
        List.getLast?_concat]
      rfl
    show unmarshalBody prev _ '[' _ = _
    rw [hlast]
    unfold unmarshalBody
    rw [if_neg (by simp), if_pos (by simp)]
    unfold jsonStep
    rw [hj]
    dsimp only
    rw [show netString n0 :: ns'.map netString = ((n0 :: ns').map netString) from
      (List.map_cons netString n0 ns').symm]
    rw [finishParse_all_valid _ (netString_token_good _ hv),
      map_parseCIDR_netString _ hv]

/-! ## Claim C5 -/

/-- Claim C5: for every finite list of valid CIDR networks (each the
result of a successful `ParseCIDR`), serializing a `BasicNet` holding
those entries and deserializing the output (over any previous receiver
state) succeeds and yields exactly the original entry list — hence an
entry set equal to the original when compared by canonical CIDR string —
under both the Compatibility encoding and the New encoding, including
the empty collection (serialized as `""` or `[]` respectively). -/
theorem basicNet_roundtrip (ns : List IPNet) (prev : List (Option IPNet))
    (hv : ∀ n ∈ ns, ∃ s, parseCIDR s = some n) (fmt : Nat)
    (hfmt : fmt = JsonFormatCompatibility ∨ fmt = JsonFormatNew) :
    ∃ out, BasicNet.MarshalJSON fmt (ns.map some) = Except.ok out ∧
      BasicNet.UnmarshalJSON prev out = UOut.ok (ns.map some) := by
  have hmapentry : (ns.map some).map entryString = ns.map netString := by
    rw [List.map_map]
    rfl
  rcases hfmt with rfl | rfl
  · refine ⟨'"' :: ([','].intercalate (ns.map netString) ++ ['"']), ?_,
      unmarshal_compat_roundtrip ns prev hv⟩
    unfold BasicNet.MarshalJSON
    rw [if_pos rfl, hmapentry, List.cons_append]
  · refine ⟨(match ns.map netString with
      | [] => "[]".data
      | ss => '[' :: '"' :: (['"', ',', '"'].intercalate ss ++ ['"', ']'])), ?_,
      unmarshal_new_roundtrip ns prev hv⟩
    unfold BasicNet.MarshalJSON
    rw [if_neg (by decide), if_pos rfl, hmapentry]
    rcases hss : ns.map netString with _ | ⟨t, ts⟩
    · rw [if_neg (by simp)]
    · rw [if_pos (by simp)]
      dsimp only
      rw [List.cons_append, List.cons_append]

/-- Witness for C5: the singleton whitelist `192.168.3.0/24` round-trips
under both encodings. -/
theorem basicNet_roundtrip_witness :
    (∃ out, BasicNet.MarshalJSON JsonFormatCompatibility
        (([⟨[192, 168, 3, 0], [255, 255, 255, 0]⟩] : List IPNet).map some) =
        Except.ok out ∧
      BasicNet.UnmarshalJSON [] out =
        UOut.ok (([⟨[192, 168, 3, 0], [255, 255, 255, 0]⟩] : List IPNet).map some)) ∧
    (∃ out, BasicNet.MarshalJSON JsonFormatNew
        (([⟨[192, 168, 3, 0], [255, 255, 255, 0]⟩] : List IPNet).map some) =
        Except.ok out ∧
      BasicNet.UnmarshalJSON [] out =
        UOut.ok (([⟨[192, 168, 3, 0], [255, 255, 255, 0]⟩] : List IPNet).map some)) := by
  constructor
  · exact basicNet_roundtrip _ []
      (by
        intro n hn
        rw [List.mem_singleton.mp hn]
        exact ⟨"192.168.3.0/24".data, by decide⟩)
      _ (Or.inl rfl)
  · exact basicNet_roundtrip _ []
      (by
        intro n hn
        rw [List.mem_singleton.mp hn]
        exact ⟨"192.168.3.0/24".data, by decide⟩)
      _ (Or.inr rfl)
